import Mathlib

/-!
Shallow embedding of the initbox Formula Resolution & Execution Engine.

The definitions below are translated from the TypeScript sources:
* `src/tasks/base.ts` (shipped inside the repository docs bundle):
  `BaseTask.parseVersionParts`, `BaseTask.compareVersions`,
  `BaseTask.satisfiesVersion`, `BaseTask.checkVersion`.
* `src/executor/formula-executor.ts`: `FormulaExecutor` (filtering,
  topological sort, task loop) and `StepExecutor` (platform gate,
  command construction, step execution).
* `src/parser/formula-parser.ts`: the valid step-type list of
  `FormulaParser.validateStep`.

JavaScript strings are modelled as `String` and processed on `List Char`;
regular-expression matching of the version grammar is implemented directly
(the regexes involved are anchored digit-group patterns).  External effects
(child processes, the task registry) are parameters of the embedded
functions.
-/

namespace Initbox

/-! ### Character-list string primitives (JS semantics) -/

/-- Whitespace as recognised by JavaScript `trim` / the regex class `\s`
(restricted to the ASCII whitespace characters that can occur here). -/
def isWs (c : Char) : Bool :=
  c == ' ' || c == '\t' || c == '\n' || c == '\r'

/-- JS `String.prototype.trim` on a character list. -/
def trimCL (l : List Char) : List Char :=
  ((l.dropWhile isWs).reverse.dropWhile isWs).reverse

/-- Structural equality of character lists. -/
def eqCL : List Char → List Char → Bool
  | [], [] => true
  | a :: as, b :: bs => a == b && eqCL as bs
  | _, _ => false

/-- JS `startsWith`: does `s` begin with `pat`? -/
def hasPrefixCL : List Char → List Char → Bool
  | [], _ => true
  | _ :: _, [] => false
  | p :: ps, c :: cs => p == c && hasPrefixCL ps cs

/-- JS `includes`: does `s` contain `pat` as a contiguous substring? -/
def hasInfixCL (pat : List Char) : List Char → Bool
  | [] => hasPrefixCL pat []
  | c :: cs => hasPrefixCL pat (c :: cs) || hasInfixCL pat cs

/-- Worker for `splitOnSepCL`; the fuel argument bounds the number of
consumed characters and makes the recursion structural. -/
def splitGo (sep : List Char) : Nat → List Char → List Char → List (List Char)
  | _, acc, [] => [acc.reverse]
  | 0, acc, rest => [acc.reverse ++ rest]
  | Nat.succ n, acc, c :: cs =>
    if hasPrefixCL sep (c :: cs) then
      acc.reverse :: splitGo sep n [] (List.drop (sep.length - 1) cs)
    else
      splitGo sep n (c :: acc) cs

/-- JS `String.prototype.split` with a non-empty literal separator. -/
def splitOnSepCL (sep s : List Char) : List (List Char) :=
  splitGo sep (s.length + 1) [] s

/-- Worker for `splitWsCL`. -/
def splitWsGo : Nat → List Char → List Char → List (List Char)
  | _, acc, [] => [acc.reverse]
  | 0, acc, rest => [acc.reverse ++ rest]
  | Nat.succ n, acc, c :: cs =>
    if isWs c then
      acc.reverse :: splitWsGo n [] (cs.dropWhile isWs)
    else
      splitWsGo n (c :: acc) cs

/-- JS `split(/\s+/)`: split on maximal whitespace runs (a leading run
produces a leading empty part, exactly as in JavaScript). -/
def splitWsCL (s : List Char) : List (List Char) :=
  splitWsGo (s.length + 1) [] s

/-- Numeric value of a list of decimal digit characters. -/
def digitsVal (ds : List Char) : Nat :=
  ds.foldl (fun a c => a * 10 + (c.toNat - 48)) 0

/-- JS `parseInt(s, 10)`, with `NaN` rendered as `none`: skip leading
whitespace, read an optional sign and then a maximal run of decimal
digits. -/
def parseIntCL (l : List Char) : Option Int :=
  let l1 := l.dropWhile isWs
  match l1 with
  | '-' :: rest =>
    let ds := rest.takeWhile Char.isDigit
    if ds.isEmpty then none else some (-(digitsVal ds : Int))
  | '+' :: rest =>
    let ds := rest.takeWhile Char.isDigit
    if ds.isEmpty then none else some ((digitsVal ds : Int))
  | _ =>
    let ds := l1.takeWhile Char.isDigit
    if ds.isEmpty then none else some ((digitsVal ds : Int))

/-- JS `parseInt(s, 10) || 0`: `NaN` collapses to `0`. -/
def parseIntOr0 (l : List Char) : Int :=
  (parseIntCL l).getD 0

/-- JS `s.replace(/^v/, '')`: drop one leading `v`. -/
def stripV : List Char → List Char
  | 'v' :: rest => rest
  | l => l

/-! ### Version parsing and comparison (`BaseTask`) -/

/-- The `{major, minor, patch}` record produced by
`BaseTask.parseVersionParts`. -/
structure VParts where
  major : Nat
  minor : Nat
  patch : Nat
deriving DecidableEq

/-- One optional `\.(\d+)` group of the version regex: consumed only when a
dot directly followed by a digit is present; otherwise the input is left in
place and the component defaults to `0`. -/
def parseDotGroup : List Char → Nat × List Char
  | '.' :: rest =>
    let ds := rest.takeWhile Char.isDigit
    if ds.isEmpty then (0, '.' :: rest)
    else (digitsVal ds, rest.drop ds.length)
  | l => (0, l)

/-- `BaseTask.parseVersionParts`: strip a leading `v`, then match
`^(\d+)(?:\.(\d+))?(?:\.(\d+))?`; missing groups default to `0`, and a
string that does not start with a digit yields `none` (the regex fails). -/
def parseVersionPartsCL (l : List Char) : Option VParts :=
  let l1 := stripV l
  let ds := l1.takeWhile Char.isDigit
  if ds.isEmpty then none
  else
    let r1 := l1.drop ds.length
    let (mi, r2) := parseDotGroup r1
    let (pa, _) := parseDotGroup r2
    some ⟨digitsVal ds, mi, pa⟩

/-- String-level wrapper of `parseVersionPartsCL`. -/
def parseVersionParts (s : String) : Option VParts :=
  parseVersionPartsCL s.toList

/-- Comparison of an exhausted left list (all further components `0`)
against the remaining right components. -/
def cmpZeros : List Int → Int
  | [] => 0
  | b :: bs => if (0:Int) < b then -1 else if b < 0 then 1 else cmpZeros bs

/-- Component-wise comparison loop of `BaseTask.compareVersions`: missing
components count as `0`. -/
def cmpNumLists : List Int → List Int → Int
  | [], bs => cmpZeros bs
  | a :: as, [] => if a < (0:Int) then -1 else if (0:Int) < a then 1 else cmpNumLists as []
  | a :: as, b :: bs => if a < b then -1 else if b < a then 1 else cmpNumLists as bs

/-- The dot-segment numbers of a version string:
`s.replace(/^v/,'').split('.').map(n => parseInt(n, 10) || 0)`. -/
def verNumsCL (l : List Char) : List Int :=
  (splitOnSepCL ['.'] (stripV l)).map parseIntOr0

/-- `BaseTask.compareVersions` on character lists: `-1`, `0` or `1`. -/
def cmpVerCL (a b : List Char) : Int :=
  cmpNumLists (verNumsCL a) (verNumsCL b)

/-- `BaseTask.compareVersions`. -/
def compareVersions (a b : String) : Int :=
  cmpVerCL a.toList b.toList

/-- The wildcard branch of `BaseTask.satisfiesVersion`: walk the
dot-segments of the constraint; an `x`/`*` segment matches everything from
there on, a non-numeric segment is skipped, a numeric segment must equal
the corresponding component of the parsed version (`undefined` components
beyond the third never equal a number). -/
def wildcardMatch (v : VParts) : Nat → List (List Char) → Bool
  | _, [] => true
  | i, p :: ps =>
    if eqCL p ['x'] || eqCL p ['*'] then true
    else
      match parseIntCL p with
      | none => wildcardMatch v (i + 1) ps
      | some n =>
        match [v.major, v.minor, v.patch].get? i with
        | some vi => if (vi : Int) == n then wildcardMatch v (i + 1) ps else false
        | none => false

/-- `BaseTask.satisfiesVersion`, with explicit fuel for the recursive
`||` (OR) and space-separated (AND) branches; each recursive call operates
on a strictly shorter constraint, so `constraint.length + 1` fuel always
suffices.  The branch order is exactly that of the source. -/
def satisfiesFuel : Nat → List Char → List Char → Bool
  | 0, _, _ => false
  | Nat.succ fuel, version, constraint =>
    match parseVersionPartsCL version with
    | none => false
    | some v =>
      let c := trimCL constraint
      if eqCL c ['l','a','t','e','s','t'] || eqCL c ['*'] || eqCL c ['x'] || eqCL c [] then
        true
      else if hasPrefixCL ['^'] c then
        match parseVersionPartsCL (c.drop 1) with
        | none => false
        | some target =>
          if v.major == target.major then decide (0 ≤ cmpVerCL version (c.drop 1)) else false
      else if hasPrefixCL ['~'] c then
        match parseVersionPartsCL (c.drop 1) with
        | none => false
        | some target =>
          if v.major == target.major && v.minor == target.minor then
            decide (target.patch ≤ v.patch)
          else false
      else if hasPrefixCL ['>','='] c then
        decide (0 ≤ cmpVerCL version (trimCL (c.drop 2)))
      else if hasPrefixCL ['>'] c then
        decide (0 < cmpVerCL version (trimCL (c.drop 1)))
      else if hasPrefixCL ['<','='] c then
        decide (cmpVerCL version (trimCL (c.drop 2)) ≤ 0)
      else if hasPrefixCL ['<'] c then
        decide (cmpVerCL version (trimCL (c.drop 1)) < 0)
      else if hasPrefixCL ['='] c then
        decide (cmpVerCL version (trimCL (c.drop 1)) == 0)
      else if hasInfixCL ['x'] c || hasInfixCL ['*'] c then
        wildcardMatch v 0 (splitOnSepCL ['.'] (stripV c))
      else if hasInfixCL [' ','-',' '] c then
        match splitOnSepCL [' ','-',' '] c with
        | vmin :: vmax :: _ =>
          decide (0 ≤ cmpVerCL version (trimCL vmin)) &&
            decide (cmpVerCL version (trimCL vmax) ≤ 0)
        | _ => false
      else if hasInfixCL ['|','|'] c then
        (splitOnSepCL ['|','|'] c).any (fun part => satisfiesFuel fuel version (trimCL part))
      else if hasInfixCL [' '] c && !(hasInfixCL [' ','-',' '] c) then
        (splitWsCL c).all (fun part => satisfiesFuel fuel version (trimCL part))
      else
        decide (cmpVerCL version c == 0)

/-- `BaseTask.satisfiesVersion`. -/
def satisfiesVersion (version constraint : String) : Bool :=
  satisfiesFuel (constraint.toList.length + 1) version.toList constraint.toList

/-! ### Version Check Adapter (`BaseTask.checkVersion`) -/

/-- JS `String.prototype.trim` at string level. -/
def trimS (s : String) : String :=
  String.mk (trimCL s.toList)

/-- The record returned by `BaseTask.checkVersion`. -/
structure VersionCheckResult where
  installed : Bool
  currentVersion : Option String := none
  needsUpdate : Bool
  message : String := ""
deriving DecidableEq

/-- `BaseTask.checkVersion`.  External pieces are parameters:
`runCmd` models `execSync` (`none` = the command threw: non-zero exit,
spawn failure or timeout; `some out` = captured stdout), and
`parseVersion` models `BaseTask.parseVersion`, whose regex match is a JS
falsy value (`undefined`, or an empty first capture group) exactly when
the modelled result is `none`. -/
def checkVersion (name : String) (versionCommand : Option String)
    (parseVersion : String → Option String) (runCmd : String → Option String)
    (desiredVersion : String) : VersionCheckResult :=
  match versionCommand with
  | none =>
    { installed := false, needsUpdate := true
      message := "Version check not supported for " ++ name }
  | some versionCmd =>
    match runCmd versionCmd with
    | none =>
      { installed := false, needsUpdate := true
        message := name ++ " is not installed" }
    | some raw =>
      let output := trimS raw
      match parseVersion output with
      | none =>
        { installed := true, needsUpdate := false
          message := name ++ " is installed (version unknown)" }
      | some currentVersion =>
        let sat := satisfiesVersion currentVersion desiredVersion
        { installed := true, currentVersion := some currentVersion
          needsUpdate := !sat
          message :=
            if sat then
              name ++ " " ++ currentVersion ++ " satisfies " ++ desiredVersion
            else
              name ++ " " ++ currentVersion ++ " does not satisfy " ++ desiredVersion }

/-! ### Data model (`src/types/formula.ts`) -/

/-- `InstallStep`.  The `type` field is kept as a string so that the
validator's step-type check and `StepExecutor.buildCommand`'s default
branch stay observable; optional JS fields become defaulted fields
(`undefined` list = empty list, `optional` absent = `false`). -/
structure InstallStep where
  name : String := ""
  type : String := "shell"
  command : String := ""
  args : List String := []
  optional : Bool := false
  platforms : List String := []
  env : List (String × String) := []
  cwd : Option String := none
  postInstall : List String := []
deriving DecidableEq

/-- `FormulaTask` (a `TaskDefinition` plus the formula reference's
`category` and `version`). -/
structure FormulaTask where
  id : String
  name : String := ""
  description : Option String := none
  homepage : Option String := none
  steps : List InstallStep := []
  dependencies : List String := []
  tags : List String := []
  category : String := ""
  version : Option String := none
deriving DecidableEq

/-- `StepResult` (duration kept as data but not modelled by the clock). -/
structure StepResult where
  step : InstallStep
  success : Bool
  output : Option String := none
  error : Option String := none
  duration : Nat := 0
deriving DecidableEq

/-- `TaskResult`. -/
structure TaskResult where
  task : FormulaTask
  success : Bool
  steps : List StepResult
  skipped : Bool := false
  skipReason : Option String := none
deriving DecidableEq

/-- `InstallResult`, without the wall-clock fields (`startTime`,
`endTime`, `totalDuration`) and the echoed `formula`. -/
structure InstallResult where
  success : Bool
  tasks : List TaskResult
deriving DecidableEq

/-- `ExecutorOptions`; absent JS arrays are empty lists, absent flags are
`false`, matching every use site (`length > 0` and truthiness checks). -/
structure ExecutorOptions where
  selectedTasks : List String := []
  selectedCategories : List String := []
  dryRun : Bool := false
  verbose : Bool := false
  continueOnError : Bool := false
  forceInstall : Bool := false
  skipVersionCheck : Bool := false

/-! ### Step Executor (`StepExecutor`) -/

/-- The step-type whitelist of `FormulaParser.validateStep`. -/
def validTypes : List String :=
  ["brew", "npm", "apt", "shell", "curl", "git", "pip"]

/-- `StepExecutor.buildCommand`; the `default` branch, which throws
`Unknown step type`, is modelled as `none`. -/
def buildCommand (step : InstallStep) : Option (String × List String) :=
  let baseArgs := step.args
  if step.type == "brew" then
    some ("brew", "install" :: step.command :: baseArgs)
  else if step.type == "npm" then
    some ("npm", "install" :: "-g" :: step.command :: baseArgs)
  else if step.type == "pip" then
    some ("pip3", "install" :: step.command :: baseArgs)
  else if step.type == "apt" then
    some ("sudo", "apt-get" :: "install" :: "-y" :: step.command :: baseArgs)
  else if step.type == "shell" then
    some ("sh", "-c" :: step.command :: baseArgs)
  else if step.type == "curl" then
    some ("sh", "-c" :: ("curl -fsSL " ++ step.command ++ " | sh") :: baseArgs)
  else if step.type == "git" then
    some ("git", "clone" :: step.command :: baseArgs)
  else
    none

/-- `StepExecutor.shouldRunOnPlatform`. -/
def shouldRunOnPlatform (currentPlatform : String) (step : InstallStep) : Bool :=
  step.platforms.isEmpty || step.platforms.contains currentPlatform

/-- Outcome of spawning one external process (the collaborator behind
`StepExecutor.runCommand`). -/
inductive ProcOutcome where
  | spawnError (message : String)
  | completed (exitCode : Int) (stdout : String) (stderr : String)

/-- The external-process interface: command, arguments, env overrides and
working directory determine the outcome. -/
abbrev ProcRunner := String → List String → List (String × String) → Option String → ProcOutcome

/-- `StepExecutor.runCommand`: resolve with stdout on exit code `0`,
otherwise reject with stderr (or the generic exit-code message when
stderr is empty); a spawn-level error rejects with its own message. -/
def runCommand (proc : ProcRunner) (command : String) (args : List String)
    (env : List (String × String)) (cwd : Option String) : Except String String :=
  match proc command args env cwd with
  | .spawnError message => .error message
  | .completed exitCode stdout stderr =>
    if exitCode == 0 then .ok stdout
    else .error (if stderr == "" then "Command failed with exit code " ++ toString exitCode else stderr)

/-- The post-install loop inside `StepExecutor.execute`: run each
`postInstall` command in order; the first rejection aborts the loop and
is reported (`some message`). -/
def runPostInstalls (proc : ProcRunner) (step : InstallStep) : List String → Option String
  | [] => none
  | postCmd :: rest =>
    match runCommand proc "sh" ["-c", postCmd] step.env step.cwd with
    | .error message => some message
    | .ok _ => runPostInstalls proc step rest

/-- `StepExecutor.execute`.  Every throwing path (unknown step type,
primary command failure, post-install failure) is caught into a
`StepResult` whose `success` is `step.optional ?? false`. -/
def stepExecute (currentPlatform : String) (proc : ProcRunner) (step : InstallStep) : StepResult :=
  if !(shouldRunOnPlatform currentPlatform step) then
    { step, success := true
      output := some ("Skipped: not applicable for " ++ currentPlatform) }
  else
    match buildCommand step with
    | none =>
      { step, success := step.optional, error := some ("Unknown step type: " ++ step.type) }
    | some (command, args) =>
      match runCommand proc command args step.env step.cwd with
      | .error message => { step, success := step.optional, error := some message }
      | .ok output =>
        match runPostInstalls proc step step.postInstall with
        | some message => { step, success := step.optional, error := some message }
        | none => { step, success := true, output := some output }

/-! ### Formula Executor (`FormulaExecutor`) -/

/-- JS `Array.prototype.join(', ')`. -/
def joinComma : List String → String
  | [] => ""
  | [x] => x
  | x :: xs => x ++ ", " ++ joinComma xs

/-- The missing-dependency filter of `FormulaExecutor.executeTask`:
listed dependency ids not yet in the run's installed set (an absent
`dependencies` array behaves like an empty one). -/
def missingDepsOf (installed : List String) (task : FormulaTask) : List String :=
  task.dependencies.filter (fun dep => !(installed.contains dep))

/-- The step loop of `FormulaExecutor.executeTask`: dry runs synthesize
successful zero-duration results; a failing step whose `optional` flag is
unset ends the task with `success = false` and the results collected so
far (the failing step included). -/
def runTaskSteps (stepExec : InstallStep → StepResult) (opts : ExecutorOptions)
    (task : FormulaTask) : List InstallStep → List StepResult → TaskResult
  | [], acc => { task, success := true, steps := acc }
  | step :: rest, acc =>
    if opts.dryRun then
      runTaskSteps stepExec opts task rest
        (acc ++ [{ step, success := true, output := some "Dry run - no action taken" }])
    else
      let result := stepExec step
      if result.success then
        runTaskSteps stepExec opts task rest (acc ++ [result])
      else if step.optional then
        runTaskSteps stepExec opts task rest (acc ++ [result])
      else
        { task, success := false, steps := acc ++ [result] }

/-- `FormulaExecutor.executeTask`.  `checkTV` bundles
`FormulaExecutor.checkTaskVersion` (task registry plus
`BaseTask.checkVersion`); `stepExec` is the step executor.  The
post-install verification check in the source only logs and does not
change the returned record, so it is not modelled. -/
def executeTask (checkTV : FormulaTask → VersionCheckResult)
    (stepExec : InstallStep → StepResult) (opts : ExecutorOptions)
    (installed : List String) (task : FormulaTask) : TaskResult :=
  let missingDeps := missingDepsOf installed task
  if !missingDeps.isEmpty then
    { task, success := false, steps := [], skipped := true
      skipReason := some ("Missing dependencies: " ++ joinComma missingDeps) }
  else if !opts.forceInstall && !opts.skipVersionCheck && !opts.dryRun then
    let versionCheck := checkTV task
    if versionCheck.installed && !versionCheck.needsUpdate then
      { task, success := true, steps := [], skipped := true
        skipReason := some versionCheck.message }
    else
      runTaskSteps stepExec opts task task.steps []
  else
    runTaskSteps stepExec opts task task.steps []

/-- `FormulaExecutor.filterTasks`. -/
def filterTasks (tasks : List FormulaTask) (opts : ExecutorOptions) : List FormulaTask :=
  let t1 :=
    if !opts.selectedTasks.isEmpty then
      tasks.filter (fun task => opts.selectedTasks.contains task.id)
    else tasks
  if !opts.selectedCategories.isEmpty then
    t1.filter (fun task => task.category != "" && opts.selectedCategories.contains task.category)
  else t1

/-- The JS `Map(tasks.map(t => [t.id, t]))` lookup: the last task with a
given id wins. -/
def taskMapGet (tasks : List FormulaTask) (tid : String) : Option FormulaTask :=
  tasks.foldl (fun acc task => if task.id == tid then some task else acc) none

/-- The `visited` set and `result` accumulator of
`FormulaExecutor.topologicalSort`. -/
structure TopoState where
  visited : List String
  result : List FormulaTask

/-- The recursive `visit` closure of `FormulaExecutor.topologicalSort`.
Fuel makes the recursion structural; since each nested call happens only
after a fresh id was added to `visited`, a fuel exceeding the number of
input tasks is never exhausted. -/
def visit (lookup : String → Option FormulaTask) : Nat → FormulaTask → TopoState → TopoState
  | 0, _, st => st
  | Nat.succ n, task, st =>
    if st.visited.contains task.id then st
    else
      let st1 : TopoState := ⟨task.id :: st.visited, st.result⟩
      let st2 := task.dependencies.foldl
        (fun s depId =>
          match lookup depId with
          | some dep => visit lookup n dep s
          | none => s)
        st1
      ⟨st2.visited, st2.result ++ [task]⟩

/-- The dependency loop inside `visit`, as a named function (identical to
the inline `foldl` in `visit`). -/
def foldDeps (tasks : List FormulaTask) (n : Nat) (deps : List String) (st : TopoState) :
    TopoState :=
  deps.foldl
    (fun s depId =>
      match taskMapGet tasks depId with
      | some dep => visit (taskMapGet tasks) n dep s
      | none => s)
    st

/-- `FormulaExecutor.topologicalSort`. -/
def topologicalSort (tasks : List FormulaTask) : List FormulaTask :=
  (tasks.foldl (fun st task => visit (taskMapGet tasks) (tasks.length + 1) task st)
    ⟨[], []⟩).result

/-- The task loop of `FormulaExecutor.execute`: threads the run's
installed set, appends each `TaskResult`, and stops early on a hard
failure unless `continueOnError` is set. -/
def execLoop (checkTV : FormulaTask → VersionCheckResult)
    (stepExec : InstallStep → StepResult) (opts : ExecutorOptions) :
    List FormulaTask → List String → List TaskResult → List TaskResult × List String
  | [], installed, acc => (acc, installed)
  | task :: rest, installed, acc =>
    let result := executeTask checkTV stepExec opts installed task
    let acc' := acc ++ [result]
    if result.success || result.skipped then
      execLoop checkTV stepExec opts rest (task.id :: installed) acc'
    else if !opts.continueOnError then
      (acc', installed)
    else
      execLoop checkTV stepExec opts rest installed acc'

/-- `FormulaExecutor.execute` on a resolved formula's task list.  The
executor instance's `installedTasks` field is threaded explicitly: it
enters as `installed` and the updated set is returned alongside the
`InstallResult`; the source never clears the field inside `execute`. -/
def execute (checkTV : FormulaTask → VersionCheckResult)
    (stepExec : InstallStep → StepResult) (tasks : List FormulaTask)
    (opts : ExecutorOptions) (installed : List String) : InstallResult × List String :=
  let tasksToInstall := filterTasks tasks opts
  if tasksToInstall.isEmpty then
    ({ success := true, tasks := [] }, installed)
  else
    let sortedTasks := topologicalSort tasksToInstall
    let r := execLoop checkTV stepExec opts sortedTasks installed []
    ({ success := r.1.all (fun res => res.success || res.skipped), tasks := r.1 }, r.2)

/-! ### Dependency graph notions for the scheduler claims -/

/-- The ids of a task list, in order. -/
def taskIds (tasks : List FormulaTask) : List String :=
  tasks.map FormulaTask.id

/-- `DepEdge tasks a b`: the task registered under id `a` lists `b` as a
dependency and `b` is itself present in the input set.  This is the
dependency graph restricted to ids present in the input, as the
scheduler sees it. -/
def DepEdge (tasks : List FormulaTask) (a b : String) : Prop :=
  ∃ A, taskMapGet tasks a = some A ∧ b ∈ A.dependencies ∧
    (taskMapGet tasks b).isSome = true

/-- Acyclicity of the present-id dependency graph: no id reaches itself
through a non-empty chain of dependency edges. -/
def AcyclicDeps (tasks : List FormulaTask) : Prop :=
  ∀ x, ¬ Relation.TransGen (DepEdge tasks) x x

/-- `ResOk tasks res`: wherever a task occurs in `res`, each of its
present dependencies' ids already occurs among the earlier entries. -/
def ResOk (tasks res : List FormulaTask) : Prop :=
  ∀ pre T post, res = pre ++ T :: post → ∀ d ∈ T.dependencies,
    (taskMapGet tasks d).isSome = true → d ∈ taskIds pre

/-- Number of input-task ids not yet visited (the fuel measure of
`visit`). -/
def remainingIds (tasks : List FormulaTask) (visited : List String) : Nat :=
  ((taskIds tasks).filter (fun i => !(visited.contains i))).length

/-- Replace a task's dependency list by its sublist kept by `keep`. -/
def pruneTask (keep : String → Bool) (t : FormulaTask) : FormulaTask :=
  { t with dependencies := t.dependencies.filter keep }

/-- Keep exactly the dependency ids present in the input set. -/
def keepPresent (tasks : List FormulaTask) : String → Bool :=
  fun d => (taskMapGet tasks d).isSome

/-- Drop, from every task, the dependency ids that are not present in the
input set. -/
def pruneAbsentDeps (tasks : List FormulaTask) : List FormulaTask :=
  tasks.map (pruneTask (keepPresent tasks))

/-- Invariant carried through `visit`: `G` is the set of ids on the
active recursion stack; the visited set is exactly the emitted ids plus
`G`; the emitted list is dependency-ordered, consists of input tasks,
has no duplicate ids, and contains no id of `G`. -/
structure TopoInv (tasks : List FormulaTask) (G : List String) (st : TopoState) : Prop where
  visited_iff : ∀ x, x ∈ st.visited ↔ x ∈ taskIds st.result ∨ x ∈ G
  resOk : ResOk tasks st.result
  res_sub : ∀ T ∈ st.result, T ∈ tasks
  res_nodup : (taskIds st.result).Nodup
  disj : ∀ x ∈ G, x ∉ taskIds st.result

/-! ### Concrete fixtures used by witnesses and counterexamples -/

/-- A validated `brew` step. -/
def stepBrew : InstallStep := { name := "install jq", type := "brew", command := "jq" }

/-- A registry stub whose version check always reports "not installed". -/
def cTVnone : FormulaTask → VersionCheckResult :=
  fun _ => { installed := false, needsUpdate := true }

/-- A step executor stub that always fails (never reached in the scenarios
that use it). -/
def sExFail : InstallStep → StepResult :=
  fun step => { step, success := false }

/-- A task with no steps and no dependencies. -/
def taskA0 : FormulaTask := { id := "a", name := "A", category := "x" }

/-- A task that depends on `taskA0`. -/
def taskB0 : FormulaTask := { id := "b", name := "B", category := "x", dependencies := ["a"] }

/-- A task whose single listed dependency id `ghost` is not part of any
resolved set it is used with. -/
def taskG0 : FormulaTask := { id := "g", name := "G", category := "x", dependencies := ["ghost"] }

/-- Default executor options (every flag unset, no selection). -/
def opts0 : ExecutorOptions := {}

/-- A process runner whose every command exits with code `1` and stderr
`boom`. -/
def procFail : ProcRunner := fun _ _ _ _ => ProcOutcome.completed 1 "" "boom"

/-- An optional shell step (used with `procFail`). -/
def stepShellOpt : InstallStep :=
  { name := "tweak", type := "shell", command := "false", optional := true }

/-- `GoodSeq installed seq`: every task in `seq` has each dependency
either already installed or scheduled earlier in `seq`. -/
def GoodSeq (installed : List String) (seq : List FormulaTask) : Prop :=
  ∀ pre T post, seq = pre ++ T :: post → ∀ d ∈ T.dependencies,
    d ∈ installed ∨ d ∈ taskIds pre

/-- The registry bundle of `FormulaExecutor.checkTaskVersion` under a
fixed external state: every tool's version-check command succeeds and its
output parses to version `2.0.0` (the constraint is the task's desired
version, defaulted to `latest` as in the source). -/
def checkTV200 : FormulaTask → VersionCheckResult :=
  fun t =>
    checkVersion t.name (some (t.id ++ " --version"))
      (fun _ => some "2.0.0") (fun _ => some "2.0.0") ((t.version).getD "latest")

/-- A task carrying the version constraint `^2.0.0`. -/
def taskV2 : FormulaTask :=
  { id := "jq", name := "jq", category := "x", version := some "^2.0.0" }

/-- The `TaskResult` produced by the missing-dependencies gate of
`FormulaExecutor.executeTask`. -/
def missingDepsResult (installed : List String) (task : FormulaTask) : TaskResult :=
  { task, success := false, steps := [], skipped := true
    skipReason := some ("Missing dependencies: " ++ joinComma (missingDepsOf installed task)) }

end Initbox

namespace Initbox

/-! ## Generic helper lemmas -/

theorem dropWhile_isWs_of_noWs {l : List Char} (h : ∀ c ∈ l, isWs c = false) :
    l.dropWhile isWs = l := by
  cases l with
  | nil => rfl
  | cons c cs => simp [List.dropWhile, h c (by simp)]

theorem trimCL_of_noWs {l : List Char} (h : ∀ c ∈ l, isWs c = false) :
    trimCL l = l := by
  unfold trimCL
  rw [dropWhile_isWs_of_noWs h, dropWhile_isWs_of_noWs, List.reverse_reverse]
  intro c hc
  exact h c (List.mem_reverse.mp hc)

theorem eqCL_cons_cons (a b : Char) (as bs : List Char) :
    eqCL (a :: as) (b :: bs) = ((a == b) && eqCL as bs) := rfl

theorem eqCL_cons_nil (a : Char) (as : List Char) : eqCL (a :: as) [] = false := rfl

theorem strToList_append (s t : String) : (s ++ t).toList = s.toList ++ t.toList := by
  cases s; cases t; simp [String.toList]

theorem hasPrefixCL_cons (p : Char) (ps : List Char) (c : Char) (cs : List Char) :
    hasPrefixCL (p :: ps) (c :: cs) = ((p == c) && hasPrefixCL ps cs) := rfl

/-! ## Claim C9: `buildCommand` is total on validator-accepted step types -/

/-- C9: for every install step whose `type` is one of the seven values
accepted by `FormulaParser.validateStep` (`brew`, `npm`, `apt`, `shell`,
`curl`, `git`, `pip`), `StepExecutor.buildCommand` produces a
command/argument pair; the `Unknown step type` throwing branch is
unreachable, so command construction never throws on validated steps. -/
theorem C9_buildCommand_total_on_valid_types (step : InstallStep)
    (h : step.type ∈ validTypes) : (buildCommand step).isSome := by
  simp only [validTypes, List.mem_cons, List.mem_singleton, List.not_mem_nil, or_false] at h
  rcases h with h | h | h | h | h | h | h <;> simp [buildCommand, h]

/-- Witness for C9 at a concrete `brew` step. -/
theorem C9_witness : stepBrew.type ∈ validTypes ∧ (buildCommand stepBrew).isSome :=
  ⟨by decide, C9_buildCommand_total_on_valid_types stepBrew (by decide)⟩

/-! ## Claim C5: the `latest` (and `*`, `x`, empty) constraints -/

/-- The first branch of `satisfiesVersion` for a parsable version: any of
the constraints `latest`, `*`, `x`, `""` is satisfied.  Stated over the
fuel-indexed worker with an arbitrary positive fuel. -/
theorem satisfiesFuel_always_branch (n : Nat) (version : List Char) (vp : VParts)
    (hv : parseVersionPartsCL version = some vp) (c : List Char)
    (hc : (eqCL (trimCL c) ['l','a','t','e','s','t'] || eqCL (trimCL c) ['*'] ||
      eqCL (trimCL c) ['x'] || eqCL (trimCL c) []) = true) :
    satisfiesFuel (n + 1) version c = true := by
  simp only [satisfiesFuel, hv, hc, if_true]

/-- C5 counterexample: the claim quantifies over every version string,
but `satisfiesVersion` parses the version before looking at the
constraint, so a version with non-numeric leading text fails even against
`latest`. -/
theorem C5_counterexample : satisfiesVersion "abc" "latest" = false := by decide

/-- C5 (amended): for every version string the version-parts regex can
parse (optionally `v`-prefixed digits), the constraints `latest`, `*`,
`x` and the empty string are always satisfied. -/
theorem C5_latest_always_true (v : String) (vp : VParts)
    (h : parseVersionParts v = some vp) :
    satisfiesVersion v "latest" = true ∧ satisfiesVersion v "*" = true ∧
      satisfiesVersion v "x" = true ∧ satisfiesVersion v "" = true := by
  refine ⟨?_, ?_, ?_, ?_⟩ <;>
    exact satisfiesFuel_always_branch _ _ vp h _ (by decide)

/-- Witness for C5 (amended) at version `1.2.3`. -/
theorem C5_witness :
    satisfiesVersion "1.2.3" "latest" = true ∧ satisfiesVersion "1.2.3" "*" = true ∧
      satisfiesVersion "1.2.3" "x" = true ∧ satisfiesVersion "1.2.3" "" = true :=
  C5_latest_always_true "1.2.3" ⟨1, 2, 3⟩ (by decide)

/-! ## Claim C6: caret, tilde and wildcard rules -/

/-- The caret branch of `satisfiesVersion` for a whitespace-free target:
same major and `compareVersions ≥ 0`. -/
theorem satisfiesFuel_caret (n : Nat) (version tl : List Char) (vp tp : VParts)
    (hv : parseVersionPartsCL version = some vp)
    (ht : parseVersionPartsCL tl = some tp)
    (hws : ∀ ch ∈ tl, isWs ch = false) :
    satisfiesFuel (n + 1) version ('^' :: tl) =
      (vp.major == tp.major && decide (0 ≤ cmpVerCL version tl)) := by
  have htrim : trimCL ('^' :: tl) = '^' :: tl := by
    refine trimCL_of_noWs ?_
    intro c hc
    rcases List.mem_cons.mp hc with h | h
    · subst h; decide
    · exact hws c h
  have h1 : eqCL ('^' :: tl) ['l','a','t','e','s','t'] = false := by
    rw [eqCL_cons_cons, show (('^' : Char) == 'l') = false from by decide, Bool.false_and]
  have h2 : eqCL ('^' :: tl) ['*'] = false := by
    rw [eqCL_cons_cons, show (('^' : Char) == '*') = false from by decide, Bool.false_and]
  have h3 : eqCL ('^' :: tl) ['x'] = false := by
    rw [eqCL_cons_cons, show (('^' : Char) == 'x') = false from by decide, Bool.false_and]
  have h5 : hasPrefixCL ['^'] ('^' :: tl) = true := by
    rw [hasPrefixCL_cons, show (('^' : Char) == '^') = true from by decide, Bool.true_and]
    rfl
  simp only [satisfiesFuel, hv, htrim, h1, h2, h3, eqCL_cons_nil, h5, Bool.or_self,
    Bool.or_false, Bool.false_or, if_false, if_true, List.drop_succ_cons, List.drop_zero, ht]
  cases h : (vp.major == tp.major) <;> simp [h]

/-- The tilde branch of `satisfiesVersion` for a whitespace-free target:
same major and minor, and at least the target's patch. -/
theorem satisfiesFuel_tilde (n : Nat) (version tl : List Char) (vp tp : VParts)
    (hv : parseVersionPartsCL version = some vp)
    (ht : parseVersionPartsCL tl = some tp)
    (hws : ∀ ch ∈ tl, isWs ch = false) :
    satisfiesFuel (n + 1) version ('~' :: tl) =
      (vp.major == tp.major && vp.minor == tp.minor && decide (tp.patch ≤ vp.patch)) := by
  have htrim : trimCL ('~' :: tl) = '~' :: tl := by
    refine trimCL_of_noWs ?_
    intro c hc
    rcases List.mem_cons.mp hc with h | h
    · subst h; decide
    · exact hws c h
  have h1 : eqCL ('~' :: tl) ['l','a','t','e','s','t'] = false := by
    rw [eqCL_cons_cons, show (('~' : Char) == 'l') = false from by decide, Bool.false_and]
  have h2 : eqCL ('~' :: tl) ['*'] = false := by
    rw [eqCL_cons_cons, show (('~' : Char) == '*') = false from by decide, Bool.false_and]
  have h3 : eqCL ('~' :: tl) ['x'] = false := by
    rw [eqCL_cons_cons, show (('~' : Char) == 'x') = false from by decide, Bool.false_and]
  have h5 : hasPrefixCL ['^'] ('~' :: tl) = false := by
    rw [hasPrefixCL_cons, show (('^' : Char) == '~') = false from by decide, Bool.false_and]
  have h6 : hasPrefixCL ['~'] ('~' :: tl) = true := by
    rw [hasPrefixCL_cons, show (('~' : Char) == '~') = true from by decide, Bool.true_and]
    rfl
  simp only [satisfiesFuel, hv, htrim, h1, h2, h3, eqCL_cons_nil, h5, h6, Bool.or_self,
    Bool.or_false, Bool.false_or, if_false, if_true, List.drop_succ_cons, List.drop_zero, ht]
  cases h : (vp.major == tp.major && vp.minor == tp.minor) <;> simp [h]

/-- C6: the spec's caret/tilde/wildcard examples, and the general caret
and tilde rules (for constraints `^X` and `~X` with a parsable,
whitespace-free `X` and a parsable version). -/
theorem C6_caret_tilde_wildcard_rules :
    (satisfiesVersion "1.2.3" "^1.2.3" = true ∧ satisfiesVersion "2.0.0" "^1.2.3" = false ∧
      satisfiesVersion "1.2.9" "~1.2.3" = true ∧ satisfiesVersion "1.3.0" "~1.2.3" = false ∧
      satisfiesVersion "1.5.0" "1.x" = true ∧ satisfiesVersion "2.0.0" "1.x" = false) ∧
    (∀ (v t : String) (vp tp : VParts), parseVersionParts v = some vp →
      parseVersionParts t = some tp → (∀ ch ∈ t.toList, isWs ch = false) →
      satisfiesVersion v ("^" ++ t) =
        (vp.major == tp.major && decide (0 ≤ compareVersions v t))) ∧
    (∀ (v t : String) (vp tp : VParts), parseVersionParts v = some vp →
      parseVersionParts t = some tp → (∀ ch ∈ t.toList, isWs ch = false) →
      satisfiesVersion v ("~" ++ t) =
        (vp.major == tp.major && vp.minor == tp.minor && decide (tp.patch ≤ vp.patch))) := by
  refine ⟨⟨by decide, by decide, by decide, by decide, by decide, by decide⟩, ?_, ?_⟩
  · intro v t vp tp hv ht hws
    have hts : (("^" : String) ++ t).toList = '^' :: t.toList := by
      cases t; rfl
    unfold satisfiesVersion
    rw [hts, List.length_cons, satisfiesFuel_caret _ v.toList t.toList vp tp hv ht hws]
    rfl
  · intro v t vp tp hv ht hws
    have hts : (("~" : String) ++ t).toList = '~' :: t.toList := by
      cases t; rfl
    unfold satisfiesVersion
    rw [hts, List.length_cons, satisfiesFuel_tilde _ v.toList t.toList vp tp hv ht hws]

/-- Witness for C6's general caret and tilde parts at concrete inputs. -/
theorem C6_witness :
    (satisfiesVersion "1.2.3" ("^" ++ "1.0.0") =
      ((⟨1,2,3⟩ : VParts).major == (⟨1,0,0⟩ : VParts).major &&
        decide (0 ≤ compareVersions "1.2.3" "1.0.0"))) ∧
    (satisfiesVersion "1.2.3" ("~" ++ "1.2.0") =
      ((⟨1,2,3⟩ : VParts).major == (⟨1,2,0⟩ : VParts).major &&
        (⟨1,2,3⟩ : VParts).minor == (⟨1,2,0⟩ : VParts).minor &&
        decide ((⟨1,2,0⟩ : VParts).patch ≤ (⟨1,2,3⟩ : VParts).patch))) :=
  ⟨C6_caret_tilde_wildcard_rules.2.1 "1.2.3" "1.0.0" ⟨1,2,3⟩ ⟨1,0,0⟩
      (by decide) (by decide) (by decide),
    C6_caret_tilde_wildcard_rules.2.2 "1.2.3" "1.2.0" ⟨1,2,3⟩ ⟨1,2,0⟩
      (by decide) (by decide) (by decide)⟩

/-! ## Claim C8: optional vs non-optional step failure -/

/-- The step loop never produces a result marked `skipped`. -/
theorem runTaskSteps_skipped_false (stepExec : InstallStep → StepResult)
    (opts : ExecutorOptions) (task : FormulaTask) :
    ∀ (steps : List InstallStep) (acc : List StepResult),
    (runTaskSteps stepExec opts task steps acc).skipped = false := by
  intro steps
  induction steps with
  | nil => intro acc; rfl
  | cons s rest ih =>
    intro acc
    simp only [runTaskSteps]
    split
    · exact ih _
    · split
      · exact ih _
      · split
        · exact ih _
        · rfl

/-- When every step either succeeds or is optional, the loop runs all of
them and reports task success. -/
theorem runTaskSteps_all_run (stepExec : InstallStep → StepResult)
    (opts : ExecutorOptions) (task : FormulaTask) (hd : opts.dryRun = false) :
    ∀ (steps : List InstallStep) (acc : List StepResult),
    (∀ s ∈ steps, (stepExec s).success = true ∨ s.optional = true) →
    runTaskSteps stepExec opts task steps acc =
      { task, success := true, steps := acc ++ steps.map stepExec } := by
  intro steps
  induction steps with
  | nil => intro acc _; simp [runTaskSteps]
  | cons s rest ih =>
    intro acc hall
    simp only [runTaskSteps, hd, Bool.false_eq_true, if_false]
    by_cases hs : (stepExec s).success = true
    · rw [if_pos hs, ih _ (fun x hx => hall x (List.mem_cons_of_mem s hx))]
      simp
    · rw [if_neg hs]
      have ho : s.optional = true := by
        rcases hall s (List.mem_cons_self s rest) with h | h
        · exact absurd h hs
        · exact h
      rw [if_pos ho, ih _ (fun x hx => hall x (List.mem_cons_of_mem s hx))]
      simp

/-- A failing non-optional step ends the task: `success = false` and only
the earlier results plus the failing step's result are reported. -/
theorem runTaskSteps_stops (stepExec : InstallStep → StepResult)
    (opts : ExecutorOptions) (task : FormulaTask) (hd : opts.dryRun = false)
    (failStep : InstallStep) (post : List InstallStep)
    (hf : (stepExec failStep).success = false) (ho : failStep.optional = false) :
    ∀ (pre : List InstallStep) (acc : List StepResult),
    (∀ p ∈ pre, (stepExec p).success = true) →
    runTaskSteps stepExec opts task (pre ++ failStep :: post) acc =
      { task, success := false
        steps := acc ++ pre.map stepExec ++ [stepExec failStep] } := by
  intro pre
  induction pre with
  | nil =>
    intro acc _
    simp only [List.nil_append, runTaskSteps, hd, Bool.false_eq_true, if_false, hf, ho]
    simp
  | cons p rest ih =>
    intro acc hall
    simp only [List.cons_append, runTaskSteps, hd, Bool.false_eq_true, if_false]
    rw [if_pos (hall p (List.mem_cons_self p rest)), List.append_eq,
      ih _ (fun x hx => hall x (List.mem_cons_of_mem p hx))]
    simp

/-- With no missing dependencies and `forceInstall` set, `executeTask`
reduces to the plain step loop. -/
theorem executeTask_force (checkTV : FormulaTask → VersionCheckResult)
    (stepExec : InstallStep → StepResult) (opts : ExecutorOptions)
    (installed : List String) (task : FormulaTask)
    (hmd : missingDepsOf installed task = []) (hfi : opts.forceInstall = true) :
    executeTask checkTV stepExec opts installed task =
      runTaskSteps stepExec opts task task.steps [] := by
  simp [executeTask, hmd, hfi]

/-- C8: failure policy for steps whose underlying command fails.
(1) A non-zero exit always rejects with a non-empty message.
(2) An optional step whose command rejects yields a successful
`StepResult` carrying the error message, so the task's loop continues.
(3) In a task whose steps all succeed or are optional, every step runs
and the task succeeds.
(4) A failing non-optional step makes the task fail, and no step after it
is executed. -/
theorem C8_step_failure_policy :
    (∀ (proc : ProcRunner) (cmd : String) (args : List String)
        (env : List (String × String)) (cwd : Option String)
        (code : Int) (out err : String),
      proc cmd args env cwd = ProcOutcome.completed code out err → code ≠ 0 →
      ∃ m, runCommand proc cmd args env cwd = Except.error m ∧ m ≠ "") ∧
    (∀ (platform : String) (proc : ProcRunner) (step : InstallStep) (cmd : String)
        (args : List String) (m : String),
      step.optional = true → shouldRunOnPlatform platform step = true →
      buildCommand step = some (cmd, args) →
      runCommand proc cmd args step.env step.cwd = Except.error m →
      stepExecute platform proc step = { step, success := true, error := some m }) ∧
    (∀ (checkTV : FormulaTask → VersionCheckResult) (stepExec : InstallStep → StepResult)
        (opts : ExecutorOptions) (installed : List String) (task : FormulaTask),
      opts.dryRun = false → opts.forceInstall = true →
      missingDepsOf installed task = [] →
      (∀ s ∈ task.steps, (stepExec s).success = true ∨ s.optional = true) →
      executeTask checkTV stepExec opts installed task =
        { task, success := true, steps := task.steps.map stepExec }) ∧
    (∀ (checkTV : FormulaTask → VersionCheckResult) (stepExec : InstallStep → StepResult)
        (opts : ExecutorOptions) (installed : List String) (task : FormulaTask)
        (pre : List InstallStep) (failStep : InstallStep) (post : List InstallStep),
      opts.dryRun = false → opts.forceInstall = true →
      missingDepsOf installed task = [] →
      task.steps = pre ++ failStep :: post →
      (∀ p ∈ pre, (stepExec p).success = true) →
      (stepExec failStep).success = false → failStep.optional = false →
      executeTask checkTV stepExec opts installed task =
        { task, success := false
          steps := pre.map stepExec ++ [stepExec failStep] }) := by
  refine ⟨?_, ?_, ?_, ?_⟩
  · intro proc cmd args env cwd code out err hp hc
    refine ⟨if err == "" then "Command failed with exit code " ++ toString code else err, ?_, ?_⟩
    · simp only [runCommand, hp]
      rw [if_neg (by simpa using hc)]
    · by_cases he : err = ""
      · rw [if_pos (by simpa using he)]
        intro habs
        have h1 := congrArg String.toList habs
        rw [strToList_append] at h1
        rw [show ("Command failed with exit code ").toList =
          'C' :: ("ommand failed with exit code ").toList from rfl] at h1
        simp at h1
      · rw [if_neg (by simpa using he)]
        exact he
  · intro platform proc step cmd args m ho hplat hbc hrun
    simp [stepExecute, hplat, hbc, hrun, ho]
  · intro checkTV stepExec opts installed task hd hfi hmd hall
    rw [executeTask_force checkTV stepExec opts installed task hmd hfi,
      runTaskSteps_all_run stepExec opts task hd task.steps [] hall]
    simp
  · intro checkTV stepExec opts installed task pre failStep post hd hfi hmd hsteps hall hf ho
    rw [executeTask_force checkTV stepExec opts installed task hmd hfi, hsteps,
      runTaskSteps_stops stepExec opts task hd failStep post hf ho pre [] hall]
    simp

/-- Witness for C8: an optional shell step failing with exit code 1 and
stderr `boom`. -/
theorem C8_witness :
    stepExecute "linux" procFail stepShellOpt =
      { step := stepShellOpt, success := true, error := some "boom" } :=
  C8_step_failure_policy.2.1 "linux" procFail stepShellOpt "sh" ["-c", "false"] "boom"
    rfl rfl rfl rfl

/-! ## Claim C4: the dependency gate ignores the resolved set -/

/-- The missing-dependencies gate fires exactly when a listed dependency
id is not yet in the installed set. -/
theorem executeTask_missing (checkTV : FormulaTask → VersionCheckResult)
    (stepExec : InstallStep → StepResult) (opts : ExecutorOptions)
    (installed : List String) (task : FormulaTask)
    (h : missingDepsOf installed task ≠ []) :
    executeTask checkTV stepExec opts installed task = missingDepsResult installed task := by
  have h' : (missingDepsOf installed task).isEmpty = false := by
    cases hm : missingDepsOf installed task with
    | nil => exact absurd hm h
    | cons a l => rfl
  simp [executeTask, missingDepsResult, h']

/-- C4 counterexample: a dependency id (`ghost`) that was never part of
the resolved set still causes the missing-dependencies skip. -/
theorem C4_counterexample :
    ("ghost" ∈ [taskG0].map FormulaTask.id → False) ∧
    (execute cTVnone sExFail [taskG0] opts0 []).1.tasks =
      [{ task := taskG0, success := false, steps := [], skipped := true
         skipReason := some "Missing dependencies: ghost" }] := by
  constructor
  · decide
  · decide

/-- C4 (amended): `executeTask` produces the missing-dependencies skip
result exactly when some listed dependency id is absent from the run's
installed set — membership of that id in the original resolved set is
never consulted. -/
theorem C4_dependency_gate_ignores_resolved_set
    (checkTV : FormulaTask → VersionCheckResult) (stepExec : InstallStep → StepResult)
    (opts : ExecutorOptions) (installed : List String) (task : FormulaTask) :
    executeTask checkTV stepExec opts installed task = missingDepsResult installed task ↔
      missingDepsOf installed task ≠ [] := by
  constructor
  · intro h hnil
    have hempty : (missingDepsOf installed task).isEmpty = true := by
      rw [hnil]; rfl
    by_cases hv : (!opts.forceInstall && !opts.skipVersionCheck && !opts.dryRun) = true
    · simp only [executeTask, hempty, Bool.not_true, Bool.false_eq_true, if_false, hv,
        if_true] at h
      by_cases hc : ((checkTV task).installed && !(checkTV task).needsUpdate) = true
      · rw [if_pos hc] at h
        have := congrArg TaskResult.success h
        simp [missingDepsResult] at this
      · rw [if_neg hc] at h
        have := congrArg TaskResult.skipped h
        rw [runTaskSteps_skipped_false] at this
        simp [missingDepsResult] at this
    · simp only [executeTask, hempty, Bool.not_true, Bool.false_eq_true, if_false, hv] at h
      have := congrArg TaskResult.skipped h
      rw [runTaskSteps_skipped_false] at this
      simp [missingDepsResult] at this
  · exact executeTask_missing checkTV stepExec opts installed task

/-! ## Claim C10: a missing-dependencies skip is benign -/

/-- C10: a task skipped for missing dependencies yields
`success = false, skipped = true`; the loop nevertheless records its id
in the installed set and continues with the remaining tasks (no
`continueOnError` stop), and such a result never makes the overall
success computation false. -/
theorem C10_missing_deps_skip_is_benign
    (checkTV : FormulaTask → VersionCheckResult) (stepExec : InstallStep → StepResult)
    (opts : ExecutorOptions) (installed : List String) (acc : List TaskResult)
    (task : FormulaTask) (rest : List FormulaTask)
    (h : ∃ d ∈ task.dependencies, d ∉ installed) :
    (execLoop checkTV stepExec opts (task :: rest) installed acc =
      execLoop checkTV stepExec opts rest (task.id :: installed)
        (acc ++ [missingDepsResult installed task])) ∧
    (missingDepsResult installed task).success = false ∧
    (missingDepsResult installed task).skipped = true ∧
    (∀ results1 results2 : List TaskResult,
      (results1 ++ missingDepsResult installed task :: results2).all
          (fun r => r.success || r.skipped) =
        (results1 ++ results2).all (fun r => r.success || r.skipped)) := by
  rcases h with ⟨d, hd, hdi⟩
  have hne : missingDepsOf installed task ≠ [] := by
    refine List.ne_nil_of_mem (a := d) ?_
    simp [missingDepsOf, List.mem_filter, hd, hdi]
  refine ⟨?_, rfl, rfl, ?_⟩
  · simp only [execLoop, executeTask_missing checkTV stepExec opts installed task hne,
      missingDepsResult]
    rfl
  · intro results1 results2
    simp [missingDepsResult]

/-- Witness for C10: the `ghost`-dependency task in an otherwise empty
loop. -/
theorem C10_witness :
    (execLoop cTVnone sExFail opts0 [taskG0] [] [] =
      execLoop cTVnone sExFail opts0 [] ["g"] ([] ++ [missingDepsResult [] taskG0])) ∧
    (missingDepsResult [] taskG0).success = false ∧
    (missingDepsResult [] taskG0).skipped = true ∧
    (∀ results1 results2 : List TaskResult,
      (results1 ++ missingDepsResult [] taskG0 :: results2).all
          (fun r => r.success || r.skipped) =
        (results1 ++ results2).all (fun r => r.success || r.skipped)) :=
  C10_missing_deps_skip_is_benign cTVnone sExFail opts0 [] [] taskG0 []
    ⟨"ghost", by decide, by decide⟩

/-! ## Claim C3: the installed set across `execute` invocations -/

/-- The task loop never removes ids from the installed set. -/
theorem execLoop_installed_mono (checkTV : FormulaTask → VersionCheckResult)
    (stepExec : InstallStep → StepResult) (opts : ExecutorOptions) (x : String) :
    ∀ (seq : List FormulaTask) (installed : List String) (acc : List TaskResult),
    x ∈ installed → x ∈ (execLoop checkTV stepExec opts seq installed acc).2 := by
  intro seq
  induction seq with
  | nil => intro installed acc hx; exact hx
  | cons task rest ih =>
    intro installed acc hx
    simp only [execLoop]
    split
    · exact ih _ _ (List.mem_cons_of_mem _ hx)
    · split
      · exact hx
      · exact ih _ _ hx

/-- C3 counterexample: after a run that installs task `a`, the installed
set handed to the next `execute` invocation on the same executor
instance still contains `a` (the source never clears the field), and this
is observable: the dependent task `b` passes the dependency gate on the
second run, while a fresh executor would skip it. -/
theorem C3_counterexample :
    (execute cTVnone sExFail [taskA0] opts0 []).2 = ["a"] ∧
    (executeTask cTVnone sExFail opts0 (execute cTVnone sExFail [taskA0] opts0 []).2
        taskB0).skipped = false ∧
    (executeTask cTVnone sExFail opts0 [] taskB0).skipped = true := by
  refine ⟨by decide, by decide, by decide⟩

/-- C3 (amended): the run-scoped installed set is never reset by
`execute`; every id present when an invocation starts is still present
in the set it hands to the next invocation, so ids accumulate across
runs of the same executor instance. -/
theorem C3_installed_set_persists (checkTV : FormulaTask → VersionCheckResult)
    (stepExec : InstallStep → StepResult) (tasks : List FormulaTask)
    (opts : ExecutorOptions) (installed : List String) (x : String)
    (hx : x ∈ installed) : x ∈ (execute checkTV stepExec tasks opts installed).2 := by
  simp only [execute]
  split
  · exact hx
  · exact execLoop_installed_mono checkTV stepExec opts x _ installed [] hx

/-- Witness for C3 (amended). -/
theorem C3_witness : "a" ∈ (execute cTVnone sExFail [taskB0] opts0 ["a"]).2 :=
  C3_installed_set_persists cTVnone sExFail [taskB0] opts0 ["a"] "a" (by decide)

/-! ## Claim C1: infrastructure (lookup, fuel measure, order invariant) -/

theorem length_filter_mono {α : Type} (l : List α) (p q : α → Bool)
    (h : ∀ x, q x = true → p x = true) :
    (l.filter q).length ≤ (l.filter p).length := by
  induction l with
  | nil => simp
  | cons x xs ih =>
    simp only [List.filter_cons]
    by_cases hq : q x = true
    · rw [if_pos hq, if_pos (h x hq)]
      simpa using ih
    · rw [if_neg hq]
      by_cases hp : p x = true
      · rw [if_pos hp]
        exact Nat.le_succ_of_le ih
      · rw [if_neg hp]
        exact ih

theorem length_filter_lt {α : Type} (l : List α) (p q : α → Bool)
    (h : ∀ x, q x = true → p x = true) (a : α) (ha : a ∈ l) (hqa : q a = false)
    (hpa : p a = true) : (l.filter q).length < (l.filter p).length := by
  induction l with
  | nil => cases ha
  | cons x xs ih =>
    simp only [List.filter_cons]
    rcases List.mem_cons.mp ha with rfl | hx
    · rw [if_neg (by simp [hqa]), if_pos hpa]
      exact Nat.lt_succ_of_le (length_filter_mono xs p q h)
    · by_cases hq : q x = true
      · rw [if_pos hq, if_pos (h x hq)]
        simpa using ih hx
      · rw [if_neg hq]
        by_cases hp : p x = true
        · rw [if_pos hp]
          exact Nat.lt_succ_of_lt (ih hx)
        · rw [if_neg hp]
          exact ih hx

theorem taskMapGet_aux (tid : String) :
    ∀ (l : List FormulaTask) (acc : Option FormulaTask) (A : FormulaTask),
    l.foldl (fun acc t => if t.id == tid then some t else acc) acc = some A →
    (A ∈ l ∧ A.id = tid) ∨ acc = some A := by
  intro l
  induction l with
  | nil => intro acc A h; exact Or.inr h
  | cons t rest ih =>
    intro acc A h
    simp only [List.foldl_cons] at h
    rcases ih _ A h with h1 | h1
    · exact Or.inl ⟨List.mem_cons_of_mem _ h1.1, h1.2⟩
    · by_cases ht : (t.id == tid) = true
      · rw [if_pos ht] at h1
        have : t = A := Option.some.inj h1
        subst this
        exact Or.inl ⟨List.mem_cons_self t rest, eq_of_beq ht⟩
      · rw [if_neg ht] at h1
        exact Or.inr h1

theorem taskMapGet_mem {tasks : List FormulaTask} {tid : String} {A : FormulaTask}
    (h : taskMapGet tasks tid = some A) : A ∈ tasks ∧ A.id = tid := by
  rcases taskMapGet_aux tid tasks none A h with h1 | h1
  · exact h1
  · cases h1

theorem taskMapGet_fold_isSome (tid : String) :
    ∀ (l : List FormulaTask) (acc : Option FormulaTask),
    (acc.isSome = true ∨ tid ∈ taskIds l) →
    (l.foldl (fun acc t => if t.id == tid then some t else acc) acc).isSome = true := by
  intro l
  induction l with
  | nil =>
    intro acc h
    rcases h with h | h
    · exact h
    · cases h
  | cons t rest ih =>
    intro acc h
    simp only [List.foldl_cons]
    simp only [taskIds, List.map_cons, List.mem_cons] at h
    rcases h with h | h1 | h1
    · refine ih _ (Or.inl ?_)
      by_cases ht : (t.id == tid) = true
      · rw [if_pos ht]; rfl
      · rw [if_neg ht]; exact h
    · refine ih _ (Or.inl ?_)
      rw [if_pos (beq_iff_eq.mpr h1.symm)]
      rfl
    · exact ih _ (Or.inr h1)

theorem taskMapGet_isSome_iff (tasks : List FormulaTask) (tid : String) :
    (taskMapGet tasks tid).isSome = true ↔ tid ∈ taskIds tasks := by
  constructor
  · intro h
    obtain ⟨A, hA⟩ := Option.isSome_iff_exists.mp h
    obtain ⟨hm, hid⟩ := taskMapGet_mem hA
    exact hid ▸ List.mem_map_of_mem FormulaTask.id hm
  · intro h
    exact taskMapGet_fold_isSome tid tasks none (Or.inr h)

theorem foldl_no_match (tid : String) :
    ∀ (l : List FormulaTask) (acc : Option FormulaTask),
    (∀ t ∈ l, (t.id == tid) = false) →
    l.foldl (fun acc t => if t.id == tid then some t else acc) acc = acc := by
  intro l
  induction l with
  | nil => intro acc _; rfl
  | cons t rest ih =>
    intro acc h
    simp only [List.foldl_cons, h t (List.mem_cons_self t rest), Bool.false_eq_true, if_false]
    exact ih acc (fun x hx => h x (List.mem_cons_of_mem t hx))

theorem taskMapGet_self {tasks : List FormulaTask}
    (hnd : (taskIds tasks).Nodup) {A : FormulaTask} (hA : A ∈ tasks) :
    taskMapGet tasks A.id = some A := by
  obtain ⟨l1, l2, rfl⟩ := List.append_of_mem hA
  have hnodup2 : A.id ∉ taskIds l2 := by
    simp only [taskIds, List.map_append, List.map_cons] at hnd
    exact (List.nodup_cons.mp (List.nodup_append.mp hnd).2.1).1
  unfold taskMapGet
  rw [List.foldl_append, List.foldl_cons]
  rw [if_pos (beq_self_eq_true A.id)]
  refine foldl_no_match A.id l2 (some A) ?_
  intro t ht
  refine beq_eq_false_iff_ne.mpr ?_
  intro habs
  exact hnodup2 (habs ▸ List.mem_map_of_mem FormulaTask.id ht)

theorem task_id_injective {tasks : List FormulaTask}
    (hnd : (taskIds tasks).Nodup) {A B : FormulaTask}
    (hA : A ∈ tasks) (hB : B ∈ tasks) (h : A.id = B.id) : A = B := by
  have h1 := taskMapGet_self hnd hA
  have h2 := taskMapGet_self hnd hB
  rw [h, h2] at h1
  exact (Option.some.inj h1).symm

theorem remainingIds_mono (tasks : List FormulaTask) (v v' : List String)
    (h : ∀ x ∈ v, x ∈ v') :
    remainingIds tasks v' ≤ remainingIds tasks v := by
  refine length_filter_mono _ _ _ ?_
  intro x hx
  have hx' : x ∉ v' := by simpa using hx
  simpa using fun hm => hx' (h x hm)

theorem remainingIds_lt (tasks : List FormulaTask) (v : List String) (a : String)
    (ha : a ∈ taskIds tasks) (hav : a ∉ v) :
    remainingIds tasks (a :: v) < remainingIds tasks v := by
  refine length_filter_lt _ _ _ ?_ a ha ?_ ?_
  · intro x hx
    have hx' : x ∉ a :: v := by simpa using hx
    simpa using fun hm => hx' (List.mem_cons_of_mem a hm)
  · simp
  · simpa using hav

theorem remainingIds_le (tasks : List FormulaTask) (v : List String) :
    remainingIds tasks v ≤ tasks.length := by
  calc ((taskIds tasks).filter _).length ≤ (taskIds tasks).length :=
        List.length_filter_le _ _
    _ = tasks.length := by simp [taskIds]

theorem ResOk_append_singleton {tasks res : List FormulaTask} {task : FormulaTask}
    (h1 : ResOk tasks res)
    (h2 : ∀ d ∈ task.dependencies, (taskMapGet tasks d).isSome = true → d ∈ taskIds res) :
    ResOk tasks (res ++ [task]) := by
  intro pre T post heq d hd hp
  rcases List.eq_nil_or_concat post with rfl | ⟨l', z, rfl⟩
  · have := List.append_inj' heq rfl
    obtain ⟨rfl, hTeq⟩ := this
    have : task = T := by simpa using hTeq
    subst this
    exact h2 d hd hp
  · rw [List.concat_eq_append,
      show pre ++ T :: (l' ++ [z]) = (pre ++ T :: l') ++ [z] by simp] at heq
    obtain ⟨hres, _⟩ := List.append_inj' heq rfl
    exact h1 pre T l' hres d hd hp

/-- `visit` at positive fuel on an already-visited task returns the state
unchanged. -/
theorem visit_succ_of_contains (lookup : String → Option FormulaTask) (n : Nat)
    (task : FormulaTask) (st : TopoState) (h : st.visited.contains task.id = true) :
    visit lookup (n + 1) task st = st := by
  simp only [visit]
  rw [if_pos h]

/-- `visit` at positive fuel on a fresh task: mark it visited, fold over
its dependencies, then append it to the result. -/
theorem visit_succ_of_fresh (tasks : List FormulaTask) (n : Nat)
    (task : FormulaTask) (st : TopoState) (h : st.visited.contains task.id = false) :
    visit (taskMapGet tasks) (n + 1) task st =
      ⟨(foldDeps tasks n task.dependencies ⟨task.id :: st.visited, st.result⟩).visited,
        (foldDeps tasks n task.dependencies
          ⟨task.id :: st.visited, st.result⟩).result ++ [task]⟩ := by
  simp only [visit, foldDeps]
  rw [if_neg (by intro habs; rw [h] at habs; exact Bool.false_ne_true habs)]

/-- The central invariant-preservation property of `visit`: on an
acyclic, duplicate-free input, visiting a present task preserves the
scheduler invariant, only grows the visited set, only appends to the
result, and ends with the task emitted. -/
theorem visit_spec (tasks : List FormulaTask) (hacy : AcyclicDeps tasks) :
    ∀ (n : Nat) (task : FormulaTask) (st : TopoState) (G : List String),
    taskMapGet tasks task.id = some task →
    remainingIds tasks st.visited < n →
    TopoInv tasks G st →
    (∀ g ∈ G, Relation.ReflTransGen (DepEdge tasks) g task.id) →
    task.id ∉ G →
    TopoInv tasks G (visit (taskMapGet tasks) n task st) ∧
    (∀ x ∈ st.visited, x ∈ (visit (taskMapGet tasks) n task st).visited) ∧
    (∃ suf, (visit (taskMapGet tasks) n task st).result = st.result ++ suf) ∧
    task.id ∈ taskIds (visit (taskMapGet tasks) n task st).result := by
  intro n
  induction n with
  | zero =>
    intro task st G _ hrem _ _ _
    exact absurd hrem (Nat.not_lt_zero _)
  | succ n ih =>
    intro task st G htask hrem hinv hreach hnotG
    by_cases hvis : st.visited.contains task.id = true
    · have hmem : task.id ∈ st.visited := by simpa using hvis
      have hres : task.id ∈ taskIds st.result := by
        rcases (hinv.visited_iff task.id).mp hmem with h | h
        · exact h
        · exact absurd h hnotG
      rw [visit_succ_of_contains (taskMapGet tasks) n task st hvis]
      exact ⟨hinv, fun x hx => hx, ⟨[], by simp⟩, hres⟩
    · have hnotvis : task.id ∉ st.visited := by simpa using hvis
      have hvisf : st.visited.contains task.id = false := by
        cases h : st.visited.contains task.id
        · rfl
        · exact absurd h hvis
      have htmem : task ∈ tasks := (taskMapGet_mem htask).1
      have hidmem : task.id ∈ taskIds tasks := List.mem_map_of_mem FormulaTask.id htmem
      have hunfold := visit_succ_of_fresh tasks n task st hvisf
      -- fold over the dependency list, with stack G extended by task.id
      have hfold : ∀ (deps : List String), (∀ d ∈ deps, d ∈ task.dependencies) →
          ∀ (s : TopoState), TopoInv tasks (task.id :: G) s →
          remainingIds tasks s.visited < n →
          TopoInv tasks (task.id :: G) (foldDeps tasks n deps s) ∧
          (∀ x ∈ s.visited, x ∈ (foldDeps tasks n deps s).visited) ∧
          (∃ suf, (foldDeps tasks n deps s).result = s.result ++ suf) ∧
          remainingIds tasks (foldDeps tasks n deps s).visited < n ∧
          (∀ d ∈ deps, (taskMapGet tasks d).isSome = true →
            d ∈ taskIds (foldDeps tasks n deps s).result) := by
        intro deps
        induction deps with
        | nil =>
          intro _ s hs hrems
          exact ⟨hs, fun x hx => hx, ⟨[], by simp [foldDeps]⟩, hrems, by simp⟩
        | cons d ds ihd =>
          intro hsub s hs hrems
          have hdmem : d ∈ task.dependencies := hsub d (List.mem_cons_self d ds)
          cases hlk : taskMapGet tasks d with
          | none =>
            have hstep : foldDeps tasks n (d :: ds) s = foldDeps tasks n ds s := by
              simp [foldDeps, hlk]
            rw [hstep]
            obtain ⟨h1, h2, h3, h4, h5⟩ :=
              ihd (fun x hx => hsub x (List.mem_cons_of_mem d hx)) s hs hrems
            refine ⟨h1, h2, h3, h4, ?_⟩
            intro d' hd' hp
            rcases List.mem_cons.mp hd' with rfl | hd'2
            · rw [hlk] at hp; cases hp
            · exact h5 d' hd'2 hp
          | some dep =>
            obtain ⟨hdepmem, hdepid⟩ := taskMapGet_mem hlk
            have hpres : (taskMapGet tasks d).isSome = true := by rw [hlk]; rfl
            have hedge : DepEdge tasks task.id d := ⟨task, htask, hdmem, hpres⟩
            have hreach' : ∀ g ∈ task.id :: G,
                Relation.ReflTransGen (DepEdge tasks) g dep.id := by
              rw [hdepid]
              intro g hg
              rcases List.mem_cons.mp hg with rfl | hg2
              · exact Relation.ReflTransGen.single hedge
              · exact (hreach g hg2).tail hedge
            have hnotG' : dep.id ∉ task.id :: G := by
              rw [hdepid]
              intro hdg
              rcases List.mem_cons.mp hdg with heq2 | hg2
              · exact hacy task.id (Relation.TransGen.single (heq2 ▸ hedge))
              · exact hacy d (Relation.TransGen.tail' (hreach d hg2) hedge)
            have htaskdep : taskMapGet tasks dep.id = some dep := by
              rw [hdepid]; exact hlk
            obtain ⟨hi1, hi2, hi3, hi4⟩ := ih dep s (task.id :: G) htaskdep hrems hs hreach' hnotG'
            have hrems2 : remainingIds tasks (visit (taskMapGet tasks) n dep s).visited < n :=
              Nat.lt_of_le_of_lt (remainingIds_mono tasks _ _ hi2) hrems
            have hstep : foldDeps tasks n (d :: ds) s =
                foldDeps tasks n ds (visit (taskMapGet tasks) n dep s) := by
              simp [foldDeps, hlk]
            rw [hstep]
            obtain ⟨h1, h2, h3, h4, h5⟩ :=
              ihd (fun x hx => hsub x (List.mem_cons_of_mem d hx)) _ hi1 hrems2
            refine ⟨h1, fun x hx => h2 x (hi2 x hx), ?_, h4, ?_⟩
            · obtain ⟨s1, hs1⟩ := hi3
              obtain ⟨s2, hs2⟩ := h3
              exact ⟨s1 ++ s2, by rw [hs2, hs1, List.append_assoc]⟩
            · intro d' hd' hp
              rcases List.mem_cons.mp hd' with rfl | hd'2
              · obtain ⟨s2, hs2⟩ := h3
                rw [hs2]
                have hin : d' ∈ taskIds (visit (taskMapGet tasks) n dep s).result :=
                  hdepid ▸ hi4
                simp only [taskIds, List.map_append, List.mem_append]
                exact Or.inl hin
              · exact h5 d' hd'2 hp
      have hinv1 : TopoInv tasks (task.id :: G) ⟨task.id :: st.visited, st.result⟩ := by
        refine ⟨?_, hinv.resOk, hinv.res_sub, hinv.res_nodup, ?_⟩
        · intro x
          constructor
          · intro hx
            rcases List.mem_cons.mp hx with rfl | hx2
            · exact Or.inr (List.mem_cons_self _ _)
            · rcases (hinv.visited_iff x).mp hx2 with h | h
              · exact Or.inl h
              · exact Or.inr (List.mem_cons_of_mem _ h)
          · intro hx
            rcases hx with h | h
            · exact List.mem_cons_of_mem _ ((hinv.visited_iff x).mpr (Or.inl h))
            · rcases List.mem_cons.mp h with rfl | h2
              · exact List.mem_cons_self _ _
              · exact List.mem_cons_of_mem _ ((hinv.visited_iff x).mpr (Or.inr h2))
        · intro x hx
          rcases List.mem_cons.mp hx with rfl | hx2
          · intro habs
            exact hnotvis ((hinv.visited_iff task.id).mpr (Or.inl habs))
          · exact hinv.disj x hx2
      have hrem1 : remainingIds tasks (task.id :: st.visited) < n := by
        have h1 := remainingIds_lt tasks st.visited task.id hidmem hnotvis
        omega
      obtain ⟨hf1, hf2, hf3, hf4, hf5⟩ :=
        hfold task.dependencies (fun d hd => hd) ⟨task.id :: st.visited, st.result⟩ hinv1 hrem1
      have hidvis2 : task.id ∈
          (foldDeps tasks n task.dependencies ⟨task.id :: st.visited, st.result⟩).visited :=
        hf2 task.id (List.mem_cons_self _ _)
      have hidnotres2 : task.id ∉
          taskIds (foldDeps tasks n task.dependencies
            ⟨task.id :: st.visited, st.result⟩).result :=
        hf1.disj task.id (List.mem_cons_self _ _)
      rw [hunfold]
      refine ⟨⟨?_, ?_, ?_, ?_, ?_⟩, ?_, ?_, ?_⟩
      · intro x
        constructor
        · intro hx
          rcases (hf1.visited_iff x).mp hx with h | h
          · refine Or.inl ?_
            simp only [taskIds, List.map_append, List.mem_append]
            exact Or.inl h
          · rcases List.mem_cons.mp h with rfl | h2
            · refine Or.inl ?_
              simp [taskIds]
            · exact Or.inr h2
        · intro hx
          rcases hx with h | h
          · simp only [taskIds, List.map_append, List.map_cons, List.map_nil,
              List.mem_append, List.mem_singleton] at h
            rcases h with h | h
            · exact (hf1.visited_iff x).mpr (Or.inl h)
            · exact h ▸ hidvis2
          · exact (hf1.visited_iff x).mpr (Or.inr (List.mem_cons_of_mem _ h))
      · exact ResOk_append_singleton hf1.resOk hf5
      · intro T hT
        rcases List.mem_append.mp hT with h | h
        · exact hf1.res_sub T h
        · exact (List.mem_singleton.mp h) ▸ htmem
      · simp only [taskIds, List.map_append, List.map_cons, List.map_nil]
        refine List.Nodup.append hf1.res_nodup (List.nodup_singleton _) ?_
        intro x hx hx'
        exact hidnotres2 ((List.mem_singleton.mp hx') ▸ hx)
      · intro x hx
        simp only [taskIds, List.map_append, List.map_cons, List.map_nil,
          List.mem_append, List.mem_singleton]
        push_neg
        constructor
        · exact hf1.disj x (List.mem_cons_of_mem _ hx)
        · intro habs
          exact hnotG (habs ▸ hx)
      · intro x hx
        exact hf2 x (List.mem_cons_of_mem _ hx)
      · obtain ⟨suf, hsuf⟩ := hf3
        exact ⟨suf ++ [task], by rw [hsuf, List.append_assoc]⟩
      · simp [taskIds]

/-- Specification of `topologicalSort` on duplicate-free, acyclic
inputs: the output is dependency-ordered, complete, drawn from the
input, and free of duplicate ids. -/
theorem topologicalSort_spec (tasks : List FormulaTask) (hnd : (taskIds tasks).Nodup)
    (hacy : AcyclicDeps tasks) :
    ResOk tasks (topologicalSort tasks) ∧
    (∀ t ∈ tasks, t.id ∈ taskIds (topologicalSort tasks)) ∧
    (∀ T ∈ topologicalSort tasks, T ∈ tasks) ∧
    (taskIds (topologicalSort tasks)).Nodup := by
  have haux : ∀ (l : List FormulaTask), (∀ t ∈ l, t ∈ tasks) →
      ∀ (st : TopoState), TopoInv tasks [] st →
      TopoInv tasks []
        (l.foldl (fun st t => visit (taskMapGet tasks) (tasks.length + 1) t st) st) ∧
      (∃ suf, (l.foldl (fun st t => visit (taskMapGet tasks) (tasks.length + 1) t st)
        st).result = st.result ++ suf) ∧
      (∀ t ∈ l, t.id ∈
        taskIds (l.foldl (fun st t => visit (taskMapGet tasks) (tasks.length + 1) t st)
          st).result) := by
    intro l
    induction l with
    | nil => intro _ st hst; exact ⟨hst, ⟨[], by simp⟩, by simp⟩
    | cons t rest ihl =>
      intro hsub st hst
      have htmem : t ∈ tasks := hsub t (List.mem_cons_self t rest)
      have htask : taskMapGet tasks t.id = some t := taskMapGet_self hnd htmem
      have hrem : remainingIds tasks st.visited < tasks.length + 1 :=
        Nat.lt_succ_of_le (remainingIds_le tasks st.visited)
      obtain ⟨h1, h2, h3, h4⟩ :=
        visit_spec tasks hacy (tasks.length + 1) t st [] htask hrem hst
          (by simp) (by simp)
      simp only [List.foldl_cons]
      obtain ⟨g1, g2, g3⟩ := ihl (fun x hx => hsub x (List.mem_cons_of_mem t hx)) _ h1
      refine ⟨g1, ?_, ?_⟩
      · obtain ⟨s1, hs1⟩ := h3
        obtain ⟨s2, hs2⟩ := g2
        exact ⟨s1 ++ s2, by rw [hs2, hs1, List.append_assoc]⟩
      · intro x hx
        rcases List.mem_cons.mp hx with rfl | hx2
        · obtain ⟨s2, hs2⟩ := g2
          rw [hs2]
          simp only [taskIds, List.map_append, List.mem_append]
          exact Or.inl h4
        · exact g3 x hx2
  have hinv0 : TopoInv tasks [] ⟨[], []⟩ := by
    refine ⟨?_, ?_, ?_, ?_, ?_⟩
    · intro x; simp [taskIds]
    · intro pre T post heq d hd hp
      exact absurd heq.symm (by simp)
    · intro T hT; cases hT
    · simp [taskIds]
    · intro x hx; cases hx
  obtain ⟨hfin, hext, hall⟩ := haux tasks (fun t h => h) ⟨[], []⟩ hinv0
  exact ⟨hfin.resOk, hall, hfin.res_sub, hfin.res_nodup⟩

theorem pruneTask_id (keep : String → Bool) (t : FormulaTask) :
    (pruneTask keep t).id = t.id := rfl

/-- Lookup in the pruned task list is the pruning of the lookup. -/
theorem taskMapGet_map_prune (tasks : List FormulaTask) (keep : String → Bool) (tid : String) :
    taskMapGet (tasks.map (pruneTask keep)) tid =
      (taskMapGet tasks tid).map (pruneTask keep) := by
  have haux : ∀ (l : List FormulaTask) (acc : Option FormulaTask),
      l.foldl
          (fun acc t =>
            if (pruneTask keep t).id == tid then some (pruneTask keep t) else acc)
          (acc.map (pruneTask keep)) =
        (l.foldl (fun acc t => if t.id == tid then some t else acc) acc).map
          (pruneTask keep) := by
    intro l
    induction l with
    | nil => intro acc; rfl
    | cons t rest ihp =>
      intro acc
      simp only [List.foldl_cons, pruneTask_id]
      by_cases ht : (t.id == tid) = true
      · rw [if_pos ht, if_pos ht]
        exact ihp (some t)
      · rw [if_neg ht, if_neg ht]
        exact ihp acc
  unfold taskMapGet
  rw [List.foldl_map]
  exact haux tasks none

/-- `visit` runs in lockstep on the original and the absent-dependency
pruned input: same visited set, pruned result. -/
theorem visit_prune (tasks : List FormulaTask) :
    ∀ (n : Nat) (t : FormulaTask) (st : TopoState),
    visit (taskMapGet (pruneAbsentDeps tasks)) n (pruneTask (keepPresent tasks) t)
        ⟨st.visited, st.result.map (pruneTask (keepPresent tasks))⟩ =
      ⟨(visit (taskMapGet tasks) n t st).visited,
        (visit (taskMapGet tasks) n t st).result.map (pruneTask (keepPresent tasks))⟩ := by
  intro n
  induction n with
  | zero => intro t st; rfl
  | succ n ihn =>
    intro t st
    by_cases hvis : st.visited.contains t.id = true
    · rw [visit_succ_of_contains (taskMapGet (pruneAbsentDeps tasks)) n
          (pruneTask (keepPresent tasks) t)
          ⟨st.visited, st.result.map (pruneTask (keepPresent tasks))⟩ hvis,
        visit_succ_of_contains (taskMapGet tasks) n t st hvis]
    · have hvisf : st.visited.contains t.id = false := by
        cases h : st.visited.contains t.id
        · rfl
        · exact absurd h hvis
      rw [visit_succ_of_fresh (pruneAbsentDeps tasks) n (pruneTask (keepPresent tasks) t)
          ⟨st.visited, st.result.map (pruneTask (keepPresent tasks))⟩
          (show st.visited.contains (pruneTask (keepPresent tasks) t).id = false from hvisf),
        visit_succ_of_fresh tasks n t st hvisf]
      have hrel : ∀ (deps : List String) (s : TopoState),
          foldDeps (pruneAbsentDeps tasks) n (deps.filter (keepPresent tasks))
            ⟨s.visited, s.result.map (pruneTask (keepPresent tasks))⟩ =
          ⟨(foldDeps tasks n deps s).visited,
            (foldDeps tasks n deps s).result.map (pruneTask (keepPresent tasks))⟩ := by
        intro deps
        induction deps with
        | nil => intro s; rfl
        | cons d ds ihd =>
          intro s
          by_cases hk : keepPresent tasks d = true
          · have hfk : (d :: ds).filter (keepPresent tasks) =
                d :: ds.filter (keepPresent tasks) := by
              simp [List.filter_cons, hk]
            obtain ⟨dep, hdep⟩ := Option.isSome_iff_exists.mp hk
            have hlkP : taskMapGet (pruneAbsentDeps tasks) d =
                some (pruneTask (keepPresent tasks) dep) := by
              rw [show pruneAbsentDeps tasks = tasks.map (pruneTask (keepPresent tasks))
                  from rfl,
                taskMapGet_map_prune, hdep]
              rfl
            have hstep1 : foldDeps (pruneAbsentDeps tasks) n
                  (d :: ds.filter (keepPresent tasks))
                  ⟨s.visited, s.result.map (pruneTask (keepPresent tasks))⟩ =
                foldDeps (pruneAbsentDeps tasks) n (ds.filter (keepPresent tasks))
                  (visit (taskMapGet (pruneAbsentDeps tasks)) n
                    (pruneTask (keepPresent tasks) dep)
                    ⟨s.visited, s.result.map (pruneTask (keepPresent tasks))⟩) := by
              simp [foldDeps, hlkP]
            have hstep2 : foldDeps tasks n (d :: ds) s =
                foldDeps tasks n ds (visit (taskMapGet tasks) n dep s) := by
              simp [foldDeps, hdep]
            rw [hfk, hstep1, hstep2, ihn dep s]
            exact ihd (visit (taskMapGet tasks) n dep s)
          · have hfk : (d :: ds).filter (keepPresent tasks) =
                ds.filter (keepPresent tasks) := by
              simp only [List.filter_cons]
              rw [if_neg hk]
            have hnone : taskMapGet tasks d = none := by
              cases hc : taskMapGet tasks d with
              | none => rfl
              | some dep => exact absurd (by rw [show keepPresent tasks d =
                  (taskMapGet tasks d).isSome from rfl, hc]; rfl) hk
            have hstep2 : foldDeps tasks n (d :: ds) s = foldDeps tasks n ds s := by
              simp [foldDeps, hnone]
            rw [hfk, hstep2]
            exact ihd s
      have hdepsP : (pruneTask (keepPresent tasks) t).dependencies =
          t.dependencies.filter (keepPresent tasks) := rfl
      rw [hdepsP, pruneTask_id,
        hrel t.dependencies ⟨t.id :: st.visited, st.result⟩]
      simp

/-- Absent dependency ids never affect the ordering: pruning them away
leaves the scheduler's id sequence unchanged. -/
theorem topologicalSort_prune_ids (tasks : List FormulaTask) :
    taskIds (topologicalSort (pruneAbsentDeps tasks)) = taskIds (topologicalSort tasks) := by
  have hlen : (pruneAbsentDeps tasks).length = tasks.length := by
    simp [pruneAbsentDeps]
  have haux : ∀ (l : List FormulaTask) (st : TopoState),
      (l.map (pruneTask (keepPresent tasks))).foldl
        (fun st t => visit (taskMapGet (pruneAbsentDeps tasks)) (tasks.length + 1) t st)
        ⟨st.visited, st.result.map (pruneTask (keepPresent tasks))⟩ =
      ⟨(l.foldl (fun st t => visit (taskMapGet tasks) (tasks.length + 1) t st) st).visited,
        (l.foldl (fun st t => visit (taskMapGet tasks) (tasks.length + 1) t st) st).result.map
          (pruneTask (keepPresent tasks))⟩ := by
    intro l
    induction l with
    | nil => intro st; rfl
    | cons t rest ihl =>
      intro st
      simp only [List.map_cons, List.foldl_cons]
      rw [visit_prune tasks (tasks.length + 1) t st]
      exact ihl (visit (taskMapGet tasks) (tasks.length + 1) t st)
  unfold topologicalSort
  rw [hlen]
  have hmain : ((pruneAbsentDeps tasks).foldl
        (fun st task => visit (taskMapGet (pruneAbsentDeps tasks)) (tasks.length + 1) task st)
        ⟨[], []⟩).result =
      ((tasks.foldl (fun st task => visit (taskMapGet tasks) (tasks.length + 1) task st)
        ⟨[], []⟩).result).map (pruneTask (keepPresent tasks)) :=
    congrArg TopoState.result (haux tasks ⟨[], []⟩)
  rw [hmain]
  simp only [taskIds, List.map_map]
  exact List.map_congr_left (fun a _ => rfl)

/-- Any ranking compatible with the dependency edges certifies
acyclicity. -/
theorem acyclic_of_rank (tasks : List FormulaTask) (rank : String → Nat)
    (h : ∀ a b, DepEdge tasks a b → rank b < rank a) : AcyclicDeps tasks := by
  intro x hx
  have hlt : ∀ a b, Relation.TransGen (DepEdge tasks) a b → rank b < rank a := by
    intro a b hab
    induction hab with
    | single h1 => exact h _ _ h1
    | tail _ h1 ihab => exact Nat.lt_trans (h _ _ h1) ihab
  exact Nat.lt_irrefl _ (hlt x x hx)

/-- C1: on a duplicate-free input whose present-id dependency graph is
acyclic, every task appears in `topologicalSort`'s output after each of
its present dependencies; and dependency ids not present in the input
are ignored — removing them does not change the output's id sequence. -/
theorem C1_scheduler_orders_dependencies (tasks : List FormulaTask)
    (hnd : (taskIds tasks).Nodup) (hacy : AcyclicDeps tasks) :
    (∀ A B, A ∈ tasks → B ∈ tasks → B.id ∈ A.dependencies →
      ∃ l1 l2 l3, topologicalSort tasks = l1 ++ B :: l2 ++ A :: l3) ∧
    taskIds (topologicalSort (pruneAbsentDeps tasks)) = taskIds (topologicalSort tasks) := by
  refine ⟨?_, topologicalSort_prune_ids tasks⟩
  obtain ⟨hResOk, hall, hsub, hnodres⟩ := topologicalSort_spec tasks hnd hacy
  intro A B hA hB hBdep
  have hAin : A.id ∈ taskIds (topologicalSort tasks) := hall A hA
  obtain ⟨A', hA'mem, hA'id⟩ := List.mem_map.mp hAin
  have hAeq : A' = A := task_id_injective hnd (hsub A' hA'mem) hA hA'id
  subst hAeq
  obtain ⟨p1, p2, hdecomp⟩ := List.append_of_mem hA'mem
  have hpres : (taskMapGet tasks B.id).isSome = true := by
    rw [taskMapGet_self hnd hB]; rfl
  have hBid : B.id ∈ taskIds p1 := hResOk p1 A' p2 hdecomp B.id hBdep hpres
  obtain ⟨B', hB'mem, hB'id⟩ := List.mem_map.mp hBid
  have hB'sorted : B' ∈ topologicalSort tasks := by
    rw [hdecomp]; exact List.mem_append_left _ hB'mem
  have hBeq : B' = B := task_id_injective hnd (hsub B' hB'sorted) hB hB'id
  subst hBeq
  obtain ⟨q1, q2, hq⟩ := List.append_of_mem hB'mem
  refine ⟨q1, q2, p2, ?_⟩
  rw [hdecomp, hq]

/-- Witness for C1: the spec's two-task scenario (`b` listed first and
depending on `a`); the scheduler emits `a` before `b`. -/
theorem C1_witness :
    ((taskIds [taskB0, taskA0]).Nodup ∧ AcyclicDeps [taskB0, taskA0]) ∧
    (∃ l1 l2 l3, topologicalSort [taskB0, taskA0] = l1 ++ taskA0 :: l2 ++ taskB0 :: l3) := by
  have hnd : (taskIds [taskB0, taskA0]).Nodup := by decide
  have hacy : AcyclicDeps [taskB0, taskA0] := by
    refine acyclic_of_rank _ (fun s => if s = "a" then 0 else 1) ?_
    intro a b hE
    obtain ⟨A, hA, hdep, hpres⟩ := hE
    obtain ⟨hAmem, hAid⟩ := taskMapGet_mem hA
    rcases List.mem_cons.mp hAmem with rfl | hr
    · have hb : b = "a" := by simp [taskB0] at hdep; exact hdep
      subst hb
      subst hAid
      decide
    · have hA2 : A = taskA0 := by simpa using hr
      subst hA2
      simp [taskA0] at hdep
  exact ⟨⟨hnd, hacy⟩,
    (C1_scheduler_orders_dependencies [taskB0, taskA0] hnd hacy).1 taskB0 taskA0
      (by decide) (by decide) (by decide)⟩

/-! ## Claim C2: idempotence of re-runs under a satisfied version gate -/

theorem GoodSeq_head {installed : List String} {T : FormulaTask} {rest : List FormulaTask}
    (h : GoodSeq installed (T :: rest)) : ∀ d ∈ T.dependencies, d ∈ installed := by
  intro d hd
  rcases h [] T rest rfl d hd with h1 | h1
  · exact h1
  · cases h1

theorem GoodSeq_tail {installed : List String} {T : FormulaTask} {rest : List FormulaTask}
    (h : GoodSeq installed (T :: rest)) : GoodSeq (T.id :: installed) rest := by
  intro pre T' post heq d hd
  rcases h (T :: pre) T' post (by rw [heq]; rfl) d hd with h1 | h1
  · exact Or.inl (List.mem_cons_of_mem _ h1)
  · simp only [taskIds, List.map_cons, List.mem_cons] at h1
    rcases h1 with h2 | h2
    · exact Or.inl (h2 ▸ List.mem_cons_self _ _)
    · exact Or.inr h2

theorem GoodSeq_weaken {inst inst' : List String} {seq : List FormulaTask}
    (hsub : ∀ x ∈ inst, x ∈ inst') (h : GoodSeq inst seq) : GoodSeq inst' seq := by
  intro pre T post heq d hd
  rcases h pre T post heq d hd with h1 | h1
  · exact Or.inl (hsub d h1)
  · exact Or.inr h1

theorem GoodSeq_of_ResOk {tasks seq : List FormulaTask} (installed : List String)
    (hres : ResOk tasks seq)
    (hdeps : ∀ T ∈ seq, ∀ d ∈ T.dependencies, (taskMapGet tasks d).isSome = true) :
    GoodSeq installed seq := by
  intro pre T post heq d hd
  refine Or.inr (hres pre T post heq d hd (hdeps T ?_ d hd))
  rw [heq]
  exact List.mem_append_right _ (List.mem_cons_self _ _)

/-- When every scheduled task's version check reports "already
satisfied" and dependencies are ordered, the loop produces only
version-skip results. -/
theorem execLoop_all_version_skips (checkTV : FormulaTask → VersionCheckResult)
    (stepExec : InstallStep → StepResult) (opts : ExecutorOptions)
    (hfi : opts.forceInstall = false) (hsv : opts.skipVersionCheck = false)
    (hdr : opts.dryRun = false) :
    ∀ (seq : List FormulaTask) (installed : List String) (acc : List TaskResult),
    (∀ t ∈ seq, (checkTV t).installed = true ∧ (checkTV t).needsUpdate = false) →
    GoodSeq installed seq →
    (execLoop checkTV stepExec opts seq installed acc).1 =
      acc ++ seq.map (fun t =>
        { task := t, success := true, steps := [], skipped := true
          skipReason := some (checkTV t).message }) := by
  intro seq
  induction seq with
  | nil => intro installed acc _ _; simp [execLoop]
  | cons t rest ihs =>
    intro installed acc hck hgs
    have hmd : missingDepsOf installed t = [] := by
      unfold missingDepsOf
      refine List.filter_eq_nil_iff.mpr ?_
      intro d hd
      simpa using GoodSeq_head hgs d hd
    have hex : executeTask checkTV stepExec opts installed t =
        { task := t, success := true, steps := [], skipped := true
          skipReason := some (checkTV t).message } := by
      simp [executeTask, hmd, hfi, hsv, hdr, (hck t (List.mem_cons_self t rest)).1,
        (hck t (List.mem_cons_self t rest)).2]
    simp only [execLoop, hex, Bool.true_or]
    rw [if_true]
    rw [ihs (t.id :: installed) _ (fun x hx => hck x (List.mem_cons_of_mem t hx))
      (GoodSeq_tail hgs)]
    simp

/-- C2: with the external version check fixed at installed version
`2.0.0` and every task constrained by `^2.0.0`, running the executor
twice (no `forceInstall`, `skipVersionCheck`, `dryRun` or selection, on
a duplicate-free, dependency-closed, acyclic formula) yields only
`success = true, skipped = true` results with no executed steps — in the
first run and again in the re-run that starts from the first run's
installed set. -/
theorem C2_idempotent_second_run (tasks : List FormulaTask)
    (stepExec : InstallStep → StepResult)
    (hnd : (taskIds tasks).Nodup) (hacy : AcyclicDeps tasks)
    (hver : ∀ t ∈ tasks, t.version = some "^2.0.0")
    (hdeps : ∀ t ∈ tasks, ∀ d ∈ t.dependencies, (taskMapGet tasks d).isSome = true) :
    (∀ res ∈ (execute checkTV200 stepExec tasks opts0 []).1.tasks,
      res.success = true ∧ res.skipped = true ∧ res.steps = []) ∧
    (∀ res ∈ (execute checkTV200 stepExec tasks opts0
        (execute checkTV200 stepExec tasks opts0 []).2).1.tasks,
      res.success = true ∧ res.skipped = true ∧ res.steps = []) := by
  have hsat : satisfiesVersion "2.0.0" "^2.0.0" = true := by decide
  have hckAll : ∀ t ∈ tasks, (checkTV200 t).installed = true ∧
      (checkTV200 t).needsUpdate = false := by
    intro t ht
    simp [checkTV200, checkVersion, hver t ht, hsat]
  have hfil : filterTasks tasks opts0 = tasks := by
    simp [filterTasks, opts0]
  obtain ⟨hResOk, _, hsub, _⟩ := topologicalSort_spec tasks hnd hacy
  have hgs : ∀ installed, GoodSeq installed (topologicalSort tasks) :=
    fun installed => GoodSeq_of_ResOk installed hResOk
      (fun T hT d hd => hdeps T (hsub T hT) d hd)
  have hckS : ∀ t ∈ topologicalSort tasks, (checkTV200 t).installed = true ∧
      (checkTV200 t).needsUpdate = false :=
    fun t ht => hckAll t (hsub t ht)
  have hrun : ∀ installed, (∀ res ∈ (execute checkTV200 stepExec tasks opts0
      installed).1.tasks, res.success = true ∧ res.skipped = true ∧ res.steps = []) := by
    intro installed res hres
    by_cases hni : (filterTasks tasks opts0).isEmpty = true
    · rw [show execute checkTV200 stepExec tasks opts0 installed =
          ({ success := true, tasks := [] }, installed) from by
        simp [execute, hni]] at hres
      cases hres
    · have hneq : ¬(tasks = []) := by
        rw [hfil] at hni
        simpa [List.isEmpty_iff] using hni
      have hexec : (execute checkTV200 stepExec tasks opts0 installed).1.tasks =
          (execLoop checkTV200 stepExec opts0 (topologicalSort tasks) installed []).1 := by
        simp [execute, hni, hfil, hneq]
      rw [hexec, execLoop_all_version_skips checkTV200 stepExec opts0 rfl rfl rfl
        (topologicalSort tasks) installed [] hckS (hgs installed)] at hres
      simp only [List.nil_append, List.mem_map] at hres
      obtain ⟨t, _, rfl⟩ := hres
      exact ⟨rfl, rfl, rfl⟩
  exact ⟨hrun [], hrun _⟩

/-- Witness for C2: a one-task formula constrained by `^2.0.0`. -/
theorem C2_witness :
    (∀ res ∈ (execute checkTV200 sExFail [taskV2] opts0 []).1.tasks,
      res.success = true ∧ res.skipped = true ∧ res.steps = []) ∧
    (∀ res ∈ (execute checkTV200 sExFail [taskV2] opts0
        (execute checkTV200 sExFail [taskV2] opts0 []).2).1.tasks,
      res.success = true ∧ res.skipped = true ∧ res.steps = []) := by
  have hacy : AcyclicDeps [taskV2] := by
    refine acyclic_of_rank _ (fun _ => 0) ?_
    intro a b hE
    obtain ⟨A, hA, hdep, _⟩ := hE
    obtain ⟨hAmem, _⟩ := taskMapGet_mem hA
    have hA2 : A = taskV2 := by simpa using hAmem
    subst hA2
    simp [taskV2] at hdep
  exact C2_idempotent_second_run [taskV2] sExFail (by decide) hacy
    (by decide) (by decide)

/-! ## Claim C7: `checkVersion` postconditions -/

/-- C7: the four postconditions of `BaseTask.checkVersion`.  `runC`
models `execSync` (`none` = command failed or timed out) and `parseV`
models the regex parse of the trimmed output (`none` = JS-falsy result). -/
theorem C7_checkVersion_postconditions (name : String)
    (parseV : String → Option String) (runC : String → Option String)
    (desired : String) :
    (checkVersion name none parseV runC desired =
      { installed := false, needsUpdate := true
        message := "Version check not supported for " ++ name }) ∧
    (∀ cmd, runC cmd = none →
      checkVersion name (some cmd) parseV runC desired =
        { installed := false, needsUpdate := true
          message := name ++ " is not installed" }) ∧
    (∀ cmd out, runC cmd = some out → parseV (trimS out) = none →
      checkVersion name (some cmd) parseV runC desired =
        { installed := true, needsUpdate := false
          message := name ++ " is installed (version unknown)" }) ∧
    (∀ cmd out cur, runC cmd = some out → parseV (trimS out) = some cur →
      (checkVersion name (some cmd) parseV runC desired).installed = true ∧
      (checkVersion name (some cmd) parseV runC desired).currentVersion = some cur ∧
      (checkVersion name (some cmd) parseV runC desired).needsUpdate =
        !satisfiesVersion cur desired) := by
  refine ⟨rfl, ?_, ?_, ?_⟩
  · intro cmd h
    simp [checkVersion, h]
  · intro cmd out h1 h2
    simp [checkVersion, h1, h2]
  · intro cmd out cur h1 h2
    simp [checkVersion, h1, h2]

/-- Witness for C7: a concrete mocked environment exercising the
parsed-version branch. -/
theorem C7_witness :
    (fun _ : String => some "2.0.0") ("git --version") = some "2.0.0" ∧
    (checkVersion "git" (some "git --version") (fun _ => some "2.0.0")
        (fun _ => some "2.0.0") "^2.0.0").needsUpdate =
      !satisfiesVersion "2.0.0" "^2.0.0" :=
  ⟨rfl, ((C7_checkVersion_postconditions "git" (fun _ => some "2.0.0")
      (fun _ => some "2.0.0") "^2.0.0").2.2.2 "git --version" "2.0.0" "2.0.0"
      rfl (by decide)).2.2⟩

end Initbox
